import Mathlib

/-!
Verification of the khoj in-process search core (src/src/model.rs,
src/src/lib.rs, src/src/ignore_rules.rs).

Modelling conventions:
* Rust `HashMap` is embedded as an association list with unique keys,
  written and read through `alookup` / `ainsert` / `aupd` / `aremove`.
  Two maps are "the same HashMap state" when they are lookup-equal;
  the reachable states of the index in fact keep keys unique.
* `usize` is `Nat`; `SystemTime` is `Nat` (only its order is used).
* `f32` ranking arithmetic is idealised as exact real arithmetic with
  the IEEE special values NaN, +inf, -inf made explicit (`FVal`).
  The signs of zero are collapsed; overflow is not modelled.
* The tokenizer (src/src/lexer.rs, src/src/snowball.rs) is absent from
  the source tree and is modelled from the spec, parametric in the
  stemming transform `stem`.
-/

/-- Association-list lookup: the value stored at the first entry with key `a`
(`HashMap::get`). -/
def alookup {α β : Type} [DecidableEq α] : List (α × β) → α → Option β
  | [], _ => none
  | (k, v) :: rest, a => if k = a then some v else alookup rest a

/-- Modify the entry at key `a` in place, if present (`HashMap::get_mut`
followed by an assignment; absent keys are untouched). -/
def aupd {α β : Type} [DecidableEq α] (f : β → β) : List (α × β) → α → List (α × β)
  | [], _ => []
  | (k, v) :: rest, a => if k = a then (k, f v) :: rest else (k, v) :: aupd f rest a

/-- Insert-or-replace (`HashMap::insert`): replaces the value in place when the
key is present, appends a new entry otherwise. -/
def ainsert {α β : Type} [DecidableEq α] : List (α × β) → α → β → List (α × β)
  | [], a, b => [(a, b)]
  | (k, v) :: rest, a, b => if k = a then (a, b) :: rest else (k, v) :: ainsert rest a b

/-- Remove every entry with key `a` (`HashMap::remove`; on the unique-key maps
the program builds this removes exactly the one entry). -/
def aremove {α β : Type} [DecidableEq α] (l : List (α × β)) (a : α) : List (α × β) :=
  l.filter (fun e => decide (e.1 ≠ a))

/-- `if let Some(f) = m.get_mut(t) { *f += 1 } else { m.insert(t, 1) }`. -/
def aincr {α : Type} [DecidableEq α] (l : List (α × Nat)) (a : α) : List (α × Nat) :=
  if (alookup l a).isSome then aupd (· + 1) l a else l ++ [(a, 1)]

/-- `if let Some(f) = m.get_mut(t) { *f -= 1 }` (absent keys untouched). -/
def adecr {α : Type} [DecidableEq α] (l : List (α × Nat)) (a : α) : List (α × Nat) :=
  aupd (· - 1) l a

/-- `m.entry(t).or_default().push(x)`. -/
def apush {α : Type} [DecidableEq α] (l : List (α × List Nat)) (a : α) (x : Nat) :
    List (α × List Nat) :=
  if (alookup l a).isSome then aupd (fun v => v ++ [x]) l a else l ++ [(a, [x])]

theorem alookup_eq_none {α β : Type} [DecidableEq α] (l : List (α × β)) (a : α) :
    alookup l a = none ↔ a ∉ l.map Prod.fst := by
  induction l with
  | nil => simp [alookup]
  | cons e rest ih =>
    obtain ⟨k, v⟩ := e
    by_cases h : k = a
    · subst h; simp [alookup]
    · simp [alookup, h, ih, Ne.symm h]

theorem alookup_isSome {α β : Type} [DecidableEq α] (l : List (α × β)) (a : α) :
    (alookup l a).isSome = true ↔ a ∈ l.map Prod.fst := by
  rw [Option.isSome_iff_ne_none]
  constructor
  · intro h
    by_contra hc
    exact h ((alookup_eq_none l a).mpr hc)
  · intro h hc
    exact ((alookup_eq_none l a).mp hc) h

theorem alookup_mem {α β : Type} [DecidableEq α] {l : List (α × β)} {a : α} {b : β}
    (h : alookup l a = some b) : (a, b) ∈ l := by
  induction l with
  | nil => simp [alookup] at h
  | cons e rest ih =>
    obtain ⟨k, v⟩ := e
    by_cases hk : k = a
    · subst hk
      simp [alookup] at h
      simp [h]
    · simp [alookup, hk] at h
      exact List.mem_cons_of_mem _ (ih h)

theorem alookup_append_right {α β : Type} [DecidableEq α] (l l' : List (α × β)) (a : α)
    (h : alookup l a = none) : alookup (l ++ l') a = alookup l' a := by
  induction l with
  | nil => simp
  | cons e rest ih =>
    obtain ⟨k, v⟩ := e
    by_cases hk : k = a
    · simp [alookup, hk] at h
    · simp [alookup, hk] at h ⊢
      exact ih h

theorem alookup_append_left {α β : Type} [DecidableEq α] (l l' : List (α × β)) (a : α) (b : β)
    (h : alookup l a = some b) : alookup (l ++ l') a = some b := by
  induction l with
  | nil => simp [alookup] at h
  | cons e rest ih =>
    obtain ⟨k, v⟩ := e
    by_cases hk : k = a
    · simp [alookup, hk] at h ⊢; exact h
    · simp [alookup, hk] at h ⊢
      exact ih h

theorem alookup_aupd_self {α β : Type} [DecidableEq α] (f : β → β) (l : List (α × β)) (a : α) :
    alookup (aupd f l a) a = (alookup l a).map f := by
  induction l with
  | nil => simp [alookup, aupd]
  | cons e rest ih =>
    obtain ⟨k, v⟩ := e
    by_cases hk : k = a
    · subst hk; simp [alookup, aupd]
    · simp [alookup, aupd, hk, ih]

theorem alookup_aupd_ne {α β : Type} [DecidableEq α] (f : β → β) (l : List (α × β)) (a t : α)
    (h : a ≠ t) : alookup (aupd f l a) t = alookup l t := by
  induction l with
  | nil => simp [aupd]
  | cons e rest ih =>
    obtain ⟨k, v⟩ := e
    by_cases hk : k = a
    · subst hk; simp [alookup, aupd, h]
    · simp [alookup, aupd, hk, ih]

theorem aupd_map_fst {α β : Type} [DecidableEq α] (f : β → β) (l : List (α × β)) (a : α) :
    (aupd f l a).map Prod.fst = l.map Prod.fst := by
  induction l with
  | nil => simp [aupd]
  | cons e rest ih =>
    obtain ⟨k, v⟩ := e
    by_cases hk : k = a
    · subst hk; simp [aupd]
    · simp [aupd, hk, ih]

theorem alookup_aincr_self {α : Type} [DecidableEq α] (l : List (α × Nat)) (a : α) :
    alookup (aincr l a) a = some ((alookup l a).getD 0 + 1) := by
  unfold aincr
  cases h : alookup l a with
  | none =>
    simp [h, alookup_append_right l [(a, 1)] a h, alookup]
  | some v =>
    simp [h, alookup_aupd_self]

theorem alookup_aincr_ne {α : Type} [DecidableEq α] (l : List (α × Nat)) (a t : α) (h : a ≠ t) :
    alookup (aincr l a) t = alookup l t := by
  unfold aincr
  cases hl : alookup l a with
  | none =>
    simp only [hl, Option.isSome_none, Bool.false_eq_true, if_false]
    cases ht : alookup l t with
    | none =>
      rw [alookup_append_right l _ t ht]
      simp [alookup, h]
    | some v =>
      rw [alookup_append_left l _ t v ht]
  | some v =>
    simp only [hl, Option.isSome_some, if_true]
    exact alookup_aupd_ne _ l a t h

theorem alookup_adecr_self {α : Type} [DecidableEq α] (l : List (α × Nat)) (a : α) :
    alookup (adecr l a) a = (alookup l a).map (· - 1) :=
  alookup_aupd_self _ l a

theorem alookup_adecr_ne {α : Type} [DecidableEq α] (l : List (α × Nat)) (a t : α) (h : a ≠ t) :
    alookup (adecr l a) t = alookup l t :=
  alookup_aupd_ne _ l a t h

theorem alookup_ainsert_self {α β : Type} [DecidableEq α] (l : List (α × β)) (a : α) (b : β) :
    alookup (ainsert l a b) a = some b := by
  induction l with
  | nil => simp [ainsert, alookup]
  | cons e rest ih =>
    obtain ⟨k, v⟩ := e
    by_cases hk : k = a
    · subst hk; simp [ainsert, alookup]
    · simp [ainsert, alookup, hk, ih]

theorem alookup_ainsert_ne {α β : Type} [DecidableEq α] (l : List (α × β)) (a t : α) (b : β)
    (h : a ≠ t) : alookup (ainsert l a b) t = alookup l t := by
  induction l with
  | nil => simp [ainsert, alookup, h]
  | cons e rest ih =>
    obtain ⟨k, v⟩ := e
    by_cases hk : k = a
    · subst hk; simp [ainsert, alookup, h]
    · simp [ainsert, alookup, hk, ih]

theorem ainsert_of_absent {α β : Type} [DecidableEq α] (l : List (α × β)) (a : α) (b : β)
    (h : alookup l a = none) : ainsert l a b = l ++ [(a, b)] := by
  induction l with
  | nil => simp [ainsert]
  | cons e rest ih =>
    obtain ⟨k, v⟩ := e
    by_cases hk : k = a
    · simp [alookup, hk] at h
    · simp [alookup, hk] at h
      simp [ainsert, hk, ih h]

theorem aremove_of_absent {α β : Type} [DecidableEq α] (l : List (α × β)) (a : α)
    (h : alookup l a = none) : aremove l a = l := by
  rw [alookup_eq_none] at h
  unfold aremove
  apply List.filter_eq_self.mpr
  intro e he
  simp only [decide_eq_true_eq]
  intro hcontra
  exact h (hcontra ▸ List.mem_map_of_mem Prod.fst he)

theorem alookup_aremove {α β : Type} [DecidableEq α] (l : List (α × β)) (a : α) :
    alookup (aremove l a) a = none := by
  rw [alookup_eq_none]
  intro h
  obtain ⟨e, he, hfst⟩ := List.mem_map.mp h
  have := List.of_mem_filter he
  simp [hfst] at this

theorem aremove_map_fst_nodup {α β : Type} [DecidableEq α] (l : List (α × β)) (a : α)
    (h : (l.map Prod.fst).Nodup) : ((aremove l a).map Prod.fst).Nodup := by
  unfold aremove
  exact (List.Sublist.map Prod.fst (List.filter_sublist l)).nodup h

/-- On a unique-key map, a successful lookup splits the map (as a multiset)
into the found entry and the map with the key removed. -/
theorem lookup_perm_cons_aremove {α β : Type} [DecidableEq α] {l : List (α × β)} {a : α} {b : β}
    (hnd : (l.map Prod.fst).Nodup) (h : alookup l a = some b) :
    List.Perm l ((a, b) :: aremove l a) := by
  induction l with
  | nil => simp [alookup] at h
  | cons e rest ih =>
    obtain ⟨k, v⟩ := e
    simp only [List.map_cons, List.nodup_cons] at hnd
    by_cases hk : k = a
    · subst hk
      have hv : v = b := by simpa [alookup] using h
      subst hv
      have : aremove ((k, v) :: rest) k = rest := by
        unfold aremove
        simp only [List.filter_cons, decide_eq_true_eq]
        rw [if_neg (by simp)]
        apply List.filter_eq_self.mpr
        intro e he
        simp only [decide_eq_true_eq]
        intro hc
        exact hnd.1 (hc ▸ List.mem_map_of_mem Prod.fst he)
      rw [this]
    · simp only [alookup, if_neg hk] at h
      have : aremove ((k, v) :: rest) a = (k, v) :: aremove rest a := by
        unfold aremove
        simp [List.filter_cons, hk]
      rw [this]
      exact ((ih hnd.2 h).cons (k, v)).trans (List.Perm.swap _ _ _)

theorem alookup_foldl_adecr {α : Type} [DecidableEq α] (ks : List α) (l : List (α × Nat))
    (t : α) : alookup (ks.foldl adecr l) t = (alookup l t).map (· - ks.count t) := by
  induction ks generalizing l with
  | nil =>
    cases h : alookup l t <;> simp [h]
  | cons k rest ih =>
    rw [List.foldl_cons, ih]
    by_cases hk : k = t
    · subst hk
      have hcount : (k :: rest).count k = rest.count k + 1 := by simp [List.count_cons]
      rw [hcount, alookup_adecr_self]
      cases h : alookup l k with
      | none => simp
      | some v =>
        simp only [Option.map_some']
        congr 1
        omega
    · have hcount : (k :: rest).count t = rest.count t := by simp [List.count_cons, hk]
      rw [hcount, alookup_adecr_ne l k t hk]

theorem alookup_foldl_aincr {α : Type} [DecidableEq α] (ks : List α) (l : List (α × Nat))
    (t : α) : alookup (ks.foldl aincr l) t =
      if ks.count t = 0 then alookup l t
      else some ((alookup l t).getD 0 + ks.count t) := by
  induction ks generalizing l with
  | nil => simp
  | cons k rest ih =>
    rw [List.foldl_cons, ih]
    by_cases hk : k = t
    · subst hk
      have hcount : (k :: rest).count k = rest.count k + 1 := by simp [List.count_cons]
      rw [hcount, alookup_aincr_self, if_neg (Nat.succ_ne_zero _)]
      by_cases hz : rest.count k = 0
      · simp [hz]
      · rw [if_neg hz]
        simp only [Option.getD_some, Option.some.injEq]
        omega
    · have hcount : (k :: rest).count t = rest.count t := by simp [List.count_cons, hk]
      rw [hcount, alookup_aincr_ne l k t hk]

theorem getD_foldl_aincr {α : Type} [DecidableEq α] (ks : List α) (l : List (α × Nat)) (t : α) :
    (alookup (ks.foldl aincr l) t).getD 0 = (alookup l t).getD 0 + ks.count t := by
  rw [alookup_foldl_aincr]
  by_cases hz : ks.count t = 0 <;> simp [hz]

theorem getD_foldl_adecr {α : Type} [DecidableEq α] (ks : List α) (l : List (α × Nat)) (t : α) :
    (alookup (ks.foldl adecr l) t).getD 0 = (alookup l t).getD 0 - ks.count t := by
  rw [alookup_foldl_adecr]
  cases alookup l t <;> simp

/-- Idealised `f32` value: exact real arithmetic plus the IEEE special values.
Signed zeros are collapsed and overflow is not modelled; these do not affect
the ranking paths under verification. -/
inductive FVal : Type where
  | nan : FVal
  | inf : FVal
  | ninf : FVal
  | fin : ℝ → FVal

/-- IEEE addition on idealised `f32` values. -/
noncomputable def FVal.add : FVal → FVal → FVal
  | .nan, _ => .nan
  | _, .nan => .nan
  | .inf, .ninf => .nan
  | .ninf, .inf => .nan
  | .inf, _ => .inf
  | _, .inf => .inf
  | .ninf, _ => .ninf
  | _, .ninf => .ninf
  | .fin x, .fin y => .fin (x + y)

open Classical in
/-- IEEE multiplication on idealised `f32` values (`0 * inf = NaN`). -/
noncomputable def FVal.mul : FVal → FVal → FVal
  | .nan, _ => .nan
  | _, .nan => .nan
  | .inf, .inf => .inf
  | .inf, .ninf => .ninf
  | .ninf, .inf => .ninf
  | .ninf, .ninf => .inf
  | .inf, .fin y => if y = 0 then .nan else if 0 < y then .inf else .ninf
  | .fin x, .inf => if x = 0 then .nan else if 0 < x then .inf else .ninf
  | .ninf, .fin y => if y = 0 then .nan else if 0 < y then .ninf else .inf
  | .fin x, .ninf => if x = 0 then .nan else if 0 < x then .ninf else .inf
  | .fin x, .fin y => .fin (x * y)

open Classical in
/-- IEEE division on idealised `f32` values (`0/0 = NaN`, `x/0 = ±inf` for
`x ≠ 0`). -/
noncomputable def FVal.div : FVal → FVal → FVal
  | .nan, _ => .nan
  | _, .nan => .nan
  | .inf, .inf => .nan
  | .inf, .ninf => .nan
  | .ninf, .inf => .nan
  | .ninf, .ninf => .nan
  | .inf, .fin y => if 0 ≤ y then .inf else .ninf
  | .ninf, .fin y => if 0 ≤ y then .ninf else .inf
  | .fin _, .inf => .fin 0
  | .fin _, .ninf => .fin 0
  | .fin x, .fin y =>
    if y = 0 then (if x = 0 then .nan else if 0 < x then .inf else .ninf)
    else .fin (x / y)

open Classical in
/-- `f32::log10`: NaN on negative, NaN and negative-infinity inputs; `-inf`
at `0`; `+inf` at `+inf`. -/
noncomputable def FVal.log10 : FVal → FVal
  | .nan => .nan
  | .ninf => .nan
  | .inf => .inf
  | .fin x => if x < 0 then .nan else if x = 0 then .ninf else .fin (Real.logb 10 x)

/-- `f32::is_nan`. -/
def FVal.isNan : FVal → Bool
  | .nan => true
  | _ => false

open Classical in
/-- `f32::partial_cmp`: `none` exactly when an operand is NaN. -/
noncomputable def FVal.pcmp : FVal → FVal → Option Ordering
  | .nan, _ => none
  | _, .nan => none
  | .inf, .inf => some .eq
  | .inf, _ => some .gt
  | _, .inf => some .lt
  | .ninf, .ninf => some .eq
  | .ninf, _ => some .lt
  | _, .ninf => some .gt
  | .fin x, .fin y => if x < y then some .lt else if x = y then some .eq else some .gt

/-- A value that is either a real number or NaN (never ±inf): the shape of
every rank the search loop can produce on reachable corpora. -/
def FinOrNan (f : FVal) : Prop := (∃ x : ℝ, f = .fin x) ∨ f = .nan

theorem finOrNan_add {a b : FVal} (ha : FinOrNan a) (hb : FinOrNan b) :
    FinOrNan (FVal.add a b) := by
  rcases ha with ⟨x, rfl⟩ | rfl <;> rcases hb with ⟨y, rfl⟩ | rfl <;>
    simp [FVal.add, FinOrNan]

theorem finOrNan_mul_fin {a : FVal} (ha : FinOrNan a) (y : ℝ) :
    FinOrNan (FVal.mul a (.fin y)) := by
  rcases ha with ⟨x, rfl⟩ | rfl <;> simp [FVal.mul, FinOrNan]

/-- Modelled from the spec: the tokenizer (`src/src/lexer.rs` and the stemmer
`src/src/snowball.rs` are referenced by `lib.rs` but absent from the source
tree). Per spec §4.1: split the character stream on every non-alphanumeric
character, keep the maximal alphanumeric runs, lowercase each run and apply a
deterministic stemming transform `stem`. -/
def lexer (stem : String → String) (cs : List Char) : List String :=
  ((cs.splitOnP (fun c => !c.isAlphanum)).filter (fun r => !r.isEmpty)).map
    (fun run => stem (String.mk (run.map Char.toLower)))

/-- `Doc` from model.rs (`SystemTime` as `Nat`). -/
structure Doc : Type where
  count : Nat
  tf : List (String × Nat)
  last_modified : Nat
  positions : List (String × List Nat)
deriving DecidableEq

/-- `Model` from model.rs: the corpus and the corpus-wide document
frequencies. -/
structure Model : Type where
  docs : List (String × Doc)
  df : List (String × Nat)
deriving DecidableEq

/-- `Model::remove_document`: drop the document at `p` (if any) and decrement
`df` for each of its tf keys (`*f -= 1` only fires for keys present in `df`;
on reachable states the value there is positive, so `Nat` subtraction is
exact). -/
def Model.remove_document (m : Model) (p : String) : Model :=
  match alookup m.docs p with
  | none => m
  | some doc =>
    { docs := aremove m.docs p
      df := doc.tf.foldl (fun df e => adecr df e.1) m.df }

/-- `Model::requires_reindexing` (the source takes `&mut self` but only
reads). -/
def Model.requires_reindexing (m : Model) (p : String) (last_modified : Nat) : Bool :=
  match alookup m.docs p with
  | some doc => decide (doc.last_modified < last_modified)
  | none => true

/-- One iteration of `add_document`'s tokenization loop: bump `count`, bump
`tf[t]`, push the token index onto `positions[t]`. -/
def docStep (acc : Nat × List (String × Nat) × List (String × List Nat)) (it : Nat × String) :
    Nat × List (String × Nat) × List (String × List Nat) :=
  (acc.1 + 1, aincr acc.2.1 it.2, apush acc.2.2 it.2 it.1)

/-- The document statistics `add_document` computes from the content in one
enumerated pass over the token stream. -/
def buildDoc (stem : String → String) (last_modified : Nat) (content : List Char) : Doc :=
  let acc := ((lexer stem content).enum).foldl docStep (0, [], [])
  { count := acc.1, tf := acc.2.1, last_modified := last_modified, positions := acc.2.2 }

/-- `Model::add_document`: remove any previous document at `p`, then insert the
freshly built one and increment `df` once per distinct token of its tf. -/
def Model.add_document (m : Model) (stem : String → String) (p : String) (last_modified : Nat)
    (content : List Char) : Model :=
  let m1 := m.remove_document p
  let d := buildDoc stem last_modified content
  { docs := ainsert m1.docs p d
    df := d.tf.foldl (fun df e => aincr df e.1) m1.df }

/-- `slice::binary_search` on a sorted vector, recursion on the half-open
interval `[lo, hi)`; returns whether the probe was found. -/
def bsGo (v : List Nat) (x : Nat) (lo hi : Nat) : Bool :=
  if h : lo < hi then
    let mid := (lo + hi) / 2
    let y := v.getD mid 0
    if y < x then bsGo v x (mid + 1) hi
    else if x < y then bsGo v x lo mid
    else true
  else false
termination_by hi - lo
decreasing_by
  · omega
  · omega

/-- `pos_vec.binary_search(&expected).is_ok()`. -/
def binary_search (v : List Nat) (x : Nat) : Bool := bsGo v x 0 v.length

/-- The inner loop of `phrase_in_doc`: from a candidate start, confirm each
subsequent token at the next consecutive offset via binary search. -/
def phraseFrom (d : Doc) (tks : List String) (expected : Nat) : Bool :=
  match tks with
  | [] => true
  | tok :: rest =>
    match alookup d.positions tok with
    | some pos_vec => binary_search pos_vec expected && phraseFrom d rest (expected + 1)
    | none => false

/-- `phrase_in_doc` from model.rs: quick-reject on missing tf keys, then try
every occurrence of the first token as a phrase start. -/
def phrase_in_doc : List String → Doc → Bool
  | [], _ => false
  | t0 :: rest, d =>
    if (t0 :: rest).any (fun t => !(alookup d.tf t).isSome) then false
    else
      match alookup d.positions t0 with
      | some first_pos => first_pos.any (fun start => phraseFrom d rest (start + 1))
      | none => false

/-- `compute_tf` from model.rs: `m / n` with `n = doc.count`,
`m = doc.tf.get(t).unwrap_or(0)`, both cast to float. -/
noncomputable def compute_tf (t : String) (doc : Doc) : FVal :=
  let n : ℝ := (doc.count : ℝ)
  let m : ℝ := (((alookup doc.tf t).getD 0 : Nat) : ℝ)
  FVal.div (.fin m) (.fin n)

/-- `compute_idf` from model.rs: `(n / m).log10()` with
`m = df.get(t).unwrap_or(1)` — a *stored* entry is used as-is, even `0`. -/
noncomputable def compute_idf (t : String) (n : Nat) (df : List (String × Nat)) : FVal :=
  let nr : ℝ := (n : ℝ)
  let m : ℝ := (((alookup df t).getD 1 : Nat) : ℝ)
  FVal.log10 (FVal.div (.fin nr) (.fin m))

/-- The tf·idf accumulation loop of `search_query` for one document. -/
noncomputable def base_rank (tokens : List String) (n : Nat) (df : List (String × Nat))
    (doc : Doc) : FVal :=
  tokens.foldl
    (fun rank t => FVal.add rank (FVal.mul (compute_tf t doc) (compute_idf t n df)))
    (.fin 0)

/-- The coverage adjustment of `search_query` (`distinct` is the token set;
`coverage.powf(2.0)` on the nonnegative finite `coverage` is its square). -/
noncomputable def apply_coverage (tokens : List String) (doc : Doc) (rank : FVal) : FVal :=
  let distinct := tokens.dedup
  let distinct_len : ℝ := ((max distinct.length 1 : Nat) : ℝ)
  if 1 < distinct.length then
    let present : ℝ := ((distinct.filter (fun t => (alookup doc.tf t).isSome)).length : ℝ)
    let coverage : ℝ := present / distinct_len
    let coverage_factor : FVal :=
      if (1 : ℝ) ≤ coverage then .fin (1 + 0.5) else .fin (coverage ^ 2)
    FVal.mul rank coverage_factor
  else rank

/-- The phrase-boost adjustment of `search_query`. -/
noncomputable def apply_phrase (tokens : List String) (doc : Doc) (rank : FVal) : FVal :=
  if 1 < tokens.length ∧ phrase_in_doc tokens doc = true then FVal.mul rank (.fin 2)
  else rank

/-- The complete per-document rank of `search_query`'s loop body. -/
noncomputable def doc_rank (tokens : List String) (n : Nat) (df : List (String × Nat))
    (doc : Doc) : FVal :=
  apply_phrase tokens doc (apply_coverage tokens doc (base_rank tokens n df doc))

/-- The ascending comparator `sort_by(partial_cmp)` uses. The `none` (NaN)
case panics in the source; NaN ranks are filtered before sorting, so the
value chosen here is never observed. -/
noncomputable def rankLe (a b : String × FVal) : Bool :=
  match FVal.pcmp a.2 b.2 with
  | some Ordering.lt => true
  | some Ordering.eq => true
  | some Ordering.gt => false
  | none => true

/-- `Model::search_query`: tokenize the query, rank every document, keep the
non-NaN ranks, sort ascending and reverse. -/
noncomputable def Model.search_query (m : Model) (stem : String → String) (query : List Char) :
    List (String × FVal) :=
  let tokens := lexer stem query
  let result := m.docs.filterMap (fun pd =>
    let rank := doc_rank tokens m.docs.length m.df pd.2
    if rank.isNan then none else some (pd.1, rank))
  (result.mergeSort rankLe).reverse

/-- Modelled from the spec: the per-file commit step of
`add_folder_to_model` (lib.rs lines 181–203). The source checks
`requires_reindexing` under the lock and, only when it returns true, extracts
the content (failure skips the file) and commits via
`Model::compute_search_data` + `Model::add_document_precomputed`, whose
definitions are absent from src/src/model.rs; per spec §4.4 steps 4–5 they
compute `term_count`, `term_frequency` and `positions` exactly as
`add_document` does, so the commit is modelled as `add_document`. -/
def process_file (m : Model) (stem : String → String) (p : String) (last_modified : Nat)
    (extracted : Option (List Char)) : Model :=
  if m.requires_reindexing p last_modified then
    match extracted with
    | some content => m.add_document stem p last_modified content
    | none => m
  else m

/-- The external gitignore matcher (the `ignore` crate) as an abstract
predicate: path and directory flag to "is ignored". -/
def GIMatcher : Type := String → Bool → Bool

/-- `Gitignore::empty()`: matches nothing, so nothing is ignored. -/
def giEmpty : GIMatcher := fun _ _ => false

/-- Outcome of `GitignoreBuilder::build()` in `build_ignorer`. -/
inductive BuildOutcome : Type where
  | ok : GIMatcher → BuildOutcome
  | failed : BuildOutcome

/-- `build_ignorer` from ignore_rules.rs: on build failure it logs a warning
and falls back to the empty matcher instead of aborting. -/
def build_ignorer : BuildOutcome → GIMatcher
  | .ok g => g
  | .failed => giEmpty

/-- `is_ignored` from ignore_rules.rs: `IGNORER.get()` is `none` before
`init`; `.map(...).unwrap_or(false)`. -/
def is_ignored (st : Option GIMatcher) (path : String) (is_dir : Bool) : Bool :=
  (st.map (fun ig => ig path is_dir)).getD false

/-- The idf formula exactly as the spec words it (for refinement comparison):
`log10(N / max(document_frequency(t), 1))`, a missing entry read as 0. -/
noncomputable def specIdf (t : String) (n : Nat) (df : List (String × Nat)) : FVal :=
  FVal.log10 (FVal.div (.fin (n : ℝ)) (.fin ((max ((alookup df t).getD 0) 1 : Nat) : ℝ)))

/-- The tf formula exactly as the spec words it (for refinement comparison):
`count of t in d / term_count(d)`, and `0` when `term_count(d) = 0`. -/
noncomputable def specTf (t : String) (doc : Doc) : FVal :=
  if doc.count = 0 then .fin 0
  else .fin ((((alookup doc.tf t).getD 0 : Nat) : ℝ) / (doc.count : ℝ))

/-- The spec-side phrase condition: the full ordered query-token sequence
occurs contiguously in the document, read off the `positions` lists. -/
def ContiguousIn (tokens : List String) (d : Doc) : Prop :=
  ∃ s : Nat, ∀ i < tokens.length, s + i ∈ (alookup d.positions (tokens.getD i "")).getD []

/-- Index states reachable from the empty index by `add_document` calls. -/
inductive Reachable (stem : String → String) : Model → Prop where
  | empty : Reachable stem ⟨[], []⟩
  | add (m : Model) (p : String) (lm : Nat) (c : List Char) :
      Reachable stem m → Reachable stem (m.add_document stem p lm c)

/-- "The document's term_frequency contains t". -/
def contains_tok (d : Doc) (t : String) : Bool := (alookup d.tf t).isSome

/-- Number of documents in the corpus whose term_frequency contains `t`. -/
def n_containing (m : Model) (t : String) : Nat :=
  (m.docs.filter (fun pd => contains_tok pd.2 t)).length

/-- Structural facts every document built by `add_document` satisfies. -/
structure DocOk (d : Doc) : Prop where
  tf_nodup : (d.tf.map Prod.fst).Nodup
  tf_bounds : ∀ e ∈ d.tf, 0 < e.2 ∧ e.2 ≤ d.count

/-- The corpus invariant: unique paths, well-formed documents, and
`df` counting exactly the documents containing each token. -/
structure ModelOk (m : Model) : Prop where
  docs_nodup : (m.docs.map Prod.fst).Nodup
  docs_ok : ∀ e ∈ m.docs, DocOk e.2
  df_count : ∀ t, (alookup m.df t).getD 0 = n_containing m t

theorem mem_aupd {α β : Type} [DecidableEq α] {f : β → β} {l : List (α × β)} {a : α}
    {e : α × β} (h : e ∈ aupd f l a) : e ∈ l ∨ ∃ v, (a, v) ∈ l ∧ e = (a, f v) := by
  induction l with
  | nil => simp [aupd] at h
  | cons hd rest ih =>
    obtain ⟨k, v⟩ := hd
    by_cases hk : k = a
    · subst hk
      simp only [aupd, if_true, eq_self_iff_true, List.mem_cons] at h
      rcases h with h1 | h2
      · exact Or.inr ⟨v, List.mem_cons_self _ _, h1⟩
      · exact Or.inl (List.mem_cons_of_mem _ h2)
    · simp only [aupd, if_neg hk, List.mem_cons] at h
      rcases h with h1 | h2
      · exact Or.inl (h1 ▸ List.mem_cons_self _ _)
      · rcases ih h2 with h' | ⟨w, hw, he⟩
        · exact Or.inl (List.mem_cons_of_mem _ h')
        · exact Or.inr ⟨w, List.mem_cons_of_mem _ hw, he⟩

theorem mem_aremove {α β : Type} [DecidableEq α] {l : List (α × β)} {a : α} {e : α × β}
    (h : e ∈ aremove l a) : e ∈ l :=
  List.mem_of_mem_filter h

theorem count_of_nodup {α : Type} [DecidableEq α] (l : List α) (t : α) (h : l.Nodup) :
    l.count t = if t ∈ l then 1 else 0 := by
  by_cases hm : t ∈ l
  · rw [if_pos hm]
    exact List.count_eq_one_of_mem h hm
  · rw [if_neg hm]
    exact List.count_eq_zero.mpr hm

/-- Number of documents in a docs list whose term_frequency contains `t`. -/
def nClist (l : List (String × Doc)) (t : String) : Nat :=
  (l.filter (fun pd => contains_tok pd.2 t)).length

theorem n_containing_eq (m : Model) (t : String) : n_containing m t = nClist m.docs t := rfl

theorem nClist_append (l1 l2 : List (String × Doc)) (t : String) :
    nClist (l1 ++ l2) t = nClist l1 t + nClist l2 t := by
  unfold nClist
  rw [List.filter_append, List.length_append]

theorem nClist_perm {l l' : List (String × Doc)} (h : l.Perm l') (t : String) :
    nClist l t = nClist l' t :=
  (h.filter _).length_eq

/-- Invariant carried through `add_document`'s tokenization loop. -/
structure AccOk (acc : Nat × List (String × Nat) × List (String × List Nat)) : Prop where
  tf_nodup : (acc.2.1.map Prod.fst).Nodup
  tf_bounds : ∀ e ∈ acc.2.1, 0 < e.2 ∧ e.2 ≤ acc.1

theorem accOk_step {acc : Nat × List (String × Nat) × List (String × List Nat)}
    (h : AccOk acc) (it : Nat × String) : AccOk (docStep acc it) := by
  obtain ⟨cnt, tf, pos⟩ := acc
  obtain ⟨htf, hb⟩ := h
  constructor
  · show ((aincr tf it.2).map Prod.fst).Nodup
    unfold aincr
    by_cases hs : (alookup tf it.2).isSome = true
    · rw [if_pos hs, aupd_map_fst]
      exact htf
    · rw [if_neg hs, List.map_append]
      have habs : it.2 ∉ tf.map Prod.fst := by
        rw [← alookup_eq_none]
        cases hl : alookup tf it.2 with
        | none => rfl
        | some v => rw [hl] at hs; simp at hs
      simp [List.nodup_append, htf, habs]
  · intro e he
    show 0 < e.2 ∧ e.2 ≤ cnt + 1
    simp only [docStep] at he
    unfold aincr at he
    by_cases hs : (alookup tf it.2).isSome = true
    · rw [if_pos hs] at he
      rcases mem_aupd he with hm | ⟨v, hv, rfl⟩
      · have := hb e hm
        omega
      · have := hb (it.2, v) hv
        simp only at this ⊢
        omega
    · rw [if_neg hs] at he
      rcases List.mem_append.mp he with hm | hm
      · have := hb e hm
        omega
      · simp at hm
        simp [hm]

theorem foldl_accOk (its : List (Nat × String))
    (acc : Nat × List (String × Nat) × List (String × List Nat)) (h : AccOk acc) :
    AccOk (its.foldl docStep acc) := by
  induction its generalizing acc with
  | nil => exact h
  | cons it rest ih => exact ih _ (accOk_step h it)

theorem buildDoc_ok (stem : String → String) (lm : Nat) (c : List Char) :
    DocOk (buildDoc stem lm c) := by
  have h := foldl_accOk ((lexer stem c).enum) (0, [], []) ⟨List.nodup_nil, by simp⟩
  exact ⟨h.tf_nodup, h.tf_bounds⟩

theorem nClist_cons (e : String × Doc) (l : List (String × Doc)) (t : String) :
    nClist (e :: l) t = (if contains_tok e.2 t = true then 1 else 0) + nClist l t := by
  unfold nClist
  rw [List.filter_cons]
  by_cases hc : contains_tok e.2 t = true
  · simp [hc, Nat.add_comm]
  · simp [hc]

theorem remove_document_of_absent {m : Model} {p : String} (hl : alookup m.docs p = none) :
    m.remove_document p = m := by
  unfold Model.remove_document
  rw [hl]

theorem remove_document_of_present {m : Model} {p : String} {d : Doc}
    (hl : alookup m.docs p = some d) :
    m.remove_document p =
      ⟨aremove m.docs p, d.tf.foldl (fun df e => adecr df e.1) m.df⟩ := by
  unfold Model.remove_document
  rw [hl]

theorem remove_document_lookup_none (m : Model) (p : String) :
    alookup (m.remove_document p).docs p = none := by
  cases hl : alookup m.docs p with
  | none => rw [remove_document_of_absent hl]; exact hl
  | some d => rw [remove_document_of_present hl]; exact alookup_aremove m.docs p

theorem remove_document_ok {m : Model} (h : ModelOk m) (p : String) :
    ModelOk (m.remove_document p) := by
  cases hl : alookup m.docs p with
  | none => rw [remove_document_of_absent hl]; exact h
  | some d =>
    rw [remove_document_of_present hl]
    have hdOk : DocOk d := h.docs_ok (p, d) (alookup_mem hl)
    refine ⟨aremove_map_fst_nodup m.docs p h.docs_nodup,
            fun e he => h.docs_ok e (mem_aremove he), fun t => ?_⟩
    have hperm := lookup_perm_cons_aremove h.docs_nodup hl
    have hsplit : nClist m.docs t =
        (if contains_tok d t = true then 1 else 0) + nClist (aremove m.docs p) t := by
      rw [nClist_perm hperm t, nClist_cons]
    have hfold : d.tf.foldl (fun df e => adecr df e.1) m.df =
        (d.tf.map Prod.fst).foldl adecr m.df := (List.foldl_map _ _ _ _).symm
    show (alookup (d.tf.foldl (fun df e => adecr df e.1) m.df) t).getD 0 = _
    rw [hfold, getD_foldl_adecr, count_of_nodup _ _ hdOk.tf_nodup]
    have hdf := h.df_count t
    rw [n_containing_eq] at hdf
    show _ = nClist (aremove m.docs p) t
    by_cases hmem : t ∈ d.tf.map Prod.fst
    · have hct : contains_tok d t = true := (alookup_isSome d.tf t).mpr hmem
      rw [if_pos hmem]
      rw [hsplit, if_pos hct] at hdf
      omega
    · have hct : ¬contains_tok d t = true := fun hc =>
        hmem ((alookup_isSome d.tf t).mp hc)
      rw [if_neg hmem]
      rw [hsplit, if_neg hct] at hdf
      omega

theorem add_document_docs (m : Model) (stem : String → String) (p : String) (lm : Nat)
    (c : List Char) :
    (m.add_document stem p lm c).docs =
      (m.remove_document p).docs ++ [(p, buildDoc stem lm c)] := by
  show ainsert (m.remove_document p).docs p (buildDoc stem lm c) = _
  exact ainsert_of_absent _ _ _ (remove_document_lookup_none m p)

theorem add_document_df (m : Model) (stem : String → String) (p : String) (lm : Nat)
    (c : List Char) :
    (m.add_document stem p lm c).df =
      (buildDoc stem lm c).tf.foldl (fun df e => aincr df e.1) (m.remove_document p).df := rfl

theorem add_document_ok {m : Model} (h : ModelOk m) (stem : String → String) (p : String)
    (lm : Nat) (c : List Char) : ModelOk (m.add_document stem p lm c) := by
  have h1 : ModelOk (m.remove_document p) := remove_document_ok h p
  have hpnone : alookup (m.remove_document p).docs p = none :=
    remove_document_lookup_none m p
  have hDok : DocOk (buildDoc stem lm c) := buildDoc_ok stem lm c
  refine ⟨?_, ?_, ?_⟩
  · rw [add_document_docs, List.map_append]
    have : p ∉ (m.remove_document p).docs.map Prod.fst := (alookup_eq_none _ _).mp hpnone
    simp [List.nodup_append, h1.docs_nodup, this]
  · intro e he
    rw [add_document_docs] at he
    rcases List.mem_append.mp he with hm | hm
    · exact h1.docs_ok e hm
    · simp at hm
      rw [hm]
      exact hDok
  · intro t
    have hfold : (buildDoc stem lm c).tf.foldl (fun df e => aincr df e.1)
        (m.remove_document p).df =
        ((buildDoc stem lm c).tf.map Prod.fst).foldl aincr (m.remove_document p).df :=
      (List.foldl_map _ _ _ _).symm
    rw [n_containing_eq, add_document_docs, add_document_df, hfold, getD_foldl_aincr,
      count_of_nodup _ _ hDok.tf_nodup, nClist_append]
    have hdf := h1.df_count t
    rw [n_containing_eq] at hdf
    rw [hdf]
    have hsingle : nClist [(p, buildDoc stem lm c)] t =
        if contains_tok (buildDoc stem lm c) t = true then 1 else 0 := by
      rw [show [(p, buildDoc stem lm c)] = (p, buildDoc stem lm c) :: [] from rfl, nClist_cons]
      simp [nClist]
    rw [hsingle]
    by_cases hmem : t ∈ (buildDoc stem lm c).tf.map Prod.fst
    · have hct : contains_tok (buildDoc stem lm c) t = true :=
        (alookup_isSome _ t).mpr hmem
      rw [if_pos hmem, if_pos hct]
    · have hct : ¬contains_tok (buildDoc stem lm c) t = true := fun hc =>
        hmem ((alookup_isSome _ t).mp hc)
      rw [if_neg hmem, if_neg hct]

theorem reachable_ok {stem : String → String} {m : Model} (h : Reachable stem m) :
    ModelOk m := by
  induction h with
  | empty =>
    refine ⟨List.nodup_nil, by simp, fun t => rfl⟩
  | add m p lm c hr ih =>
    exact add_document_ok ih stem p lm c

theorem mul_fin_fin (x y : ℝ) : FVal.mul (.fin x) (.fin y) = .fin (x * y) := rfl

theorem mul_nan_left (b : FVal) : FVal.mul .nan b = .nan := by
  cases b <;> rfl

theorem mul_fin_zero_inf : FVal.mul (.fin 0) .inf = .nan := by
  simp [FVal.mul]

theorem docOk_tf_zero_of_count_zero {d : Doc} (hd : DocOk d) (hc : d.count = 0) (t : String) :
    (alookup d.tf t).getD 0 = 0 := by
  cases hl : alookup d.tf t with
  | none => rfl
  | some v =>
    have := hd.tf_bounds (t, v) (alookup_mem hl)
    omega

theorem compute_tf_of_count_pos {t : String} {d : Doc} (h : 0 < d.count) :
    compute_tf t d = .fin ((((alookup d.tf t).getD 0 : Nat) : ℝ) / (d.count : ℝ)) := by
  unfold compute_tf
  have hne : ((d.count : Nat) : ℝ) ≠ 0 := by
    simp only [ne_eq, Nat.cast_eq_zero]
    omega
  simp [FVal.div, hne]

theorem compute_tf_of_count_zero {t : String} {d : Doc} (hc : d.count = 0)
    (ha : (alookup d.tf t).getD 0 = 0) : compute_tf t d = .nan := by
  unfold compute_tf
  simp [FVal.div, hc, ha]

theorem compute_idf_of_entry_pos {t : String} {n : Nat} {df : List (String × Nat)}
    (hn : 0 < n) (hm : 0 < (alookup df t).getD 1) :
    compute_idf t n df = .fin (Real.logb 10 ((n : ℝ) / (((alookup df t).getD 1 : Nat) : ℝ))) := by
  unfold compute_idf
  have hmne : (((alookup df t).getD 1 : Nat) : ℝ) ≠ 0 := by
    simp only [ne_eq, Nat.cast_eq_zero]
    omega
  have hq : (0 : ℝ) < (n : ℝ) / (((alookup df t).getD 1 : Nat) : ℝ) := by
    apply div_pos
    · exact_mod_cast hn
    · have : (0 : ℝ) < (((alookup df t).getD 1 : Nat) : ℝ) := by exact_mod_cast hm
      exact this
  simp only [FVal.div, hmne, if_neg hmne]
  simp [FVal.log10, not_lt_of_gt hq, ne_of_gt hq]

theorem compute_idf_of_entry_zero {t : String} {n : Nat} {df : List (String × Nat)}
    (hn : 0 < n) (hm : (alookup df t).getD 1 = 0) : compute_idf t n df = .inf := by
  unfold compute_idf
  have hnne : ((n : Nat) : ℝ) ≠ 0 := by
    simp only [ne_eq, Nat.cast_eq_zero]
    omega
  have hnpos : (0 : ℝ) < (n : ℝ) := by exact_mod_cast hn
  simp only [hm, Nat.cast_zero]
  simp [FVal.div, hnne, not_lt_of_gt hnpos, FVal.log10, hn]

/-- Each tf·idf contribution of the base-score loop is finite or NaN on a
well-formed corpus: an infinite idf (stored df entry 0) can only meet a zero
or NaN tf, giving NaN. -/
theorem contrib_finOrNan {m : Model} (hm : ModelOk m) {p : String} {d : Doc}
    (hd : (p, d) ∈ m.docs) (t : String) :
    FinOrNan (FVal.mul (compute_tf t d) (compute_idf t m.docs.length m.df)) := by
  have hn : 0 < m.docs.length := List.length_pos_of_mem hd
  have hdOk : DocOk d := hm.docs_ok (p, d) hd
  by_cases hz : (alookup m.df t).getD 1 = 0
  · -- stored zero entry: idf = +inf, but then no document contains t
    rw [compute_idf_of_entry_zero hn hz]
    have hzero : (alookup m.df t).getD 0 = 0 := by
      cases hl : alookup m.df t with
      | none => rfl
      | some v => rw [hl] at hz; simpa using hz
    have hnone : (alookup d.tf t).getD 0 = 0 := by
      have hcount := hm.df_count t
      rw [hzero, n_containing_eq] at hcount
      by_contra hc
      have hct : contains_tok d t = true := by
        unfold contains_tok
        cases hl : alookup d.tf t with
        | none => rw [hl] at hc; simp at hc
        | some v => rfl
      have hmem : (p, d) ∈ m.docs.filter (fun pd => contains_tok pd.2 t) :=
        List.mem_filter.mpr ⟨hd, hct⟩
      have := List.length_pos_of_mem hmem
      unfold nClist at hcount
      omega
    by_cases hcz : d.count = 0
    · rw [compute_tf_of_count_zero hcz hnone, mul_nan_left]
      exact Or.inr rfl
    · rw [compute_tf_of_count_pos (by omega), hnone]
      simpa using Or.inr mul_fin_zero_inf
  · rw [compute_idf_of_entry_pos hn (by omega)]
    by_cases hcz : d.count = 0
    · rw [compute_tf_of_count_zero hcz (docOk_tf_zero_of_count_zero hdOk hcz t),
        mul_nan_left]
      exact Or.inr rfl
    · rw [compute_tf_of_count_pos (by omega), mul_fin_fin]
      exact Or.inl ⟨_, rfl⟩

theorem foldl_add_finOrNan (tokens : List String) (f : String → FVal) (init : FVal)
    (hinit : FinOrNan init) (hf : ∀ t ∈ tokens, FinOrNan (f t)) :
    FinOrNan (tokens.foldl (fun r t => FVal.add r (f t)) init) := by
  induction tokens generalizing init with
  | nil => exact hinit
  | cons t rest ih =>
    rw [List.foldl_cons]
    exact ih _ (finOrNan_add hinit (hf t (List.mem_cons_self _ _)))
      (fun u hu => hf u (List.mem_cons_of_mem _ hu))

theorem base_rank_finOrNan {m : Model} (hm : ModelOk m) {p : String} {d : Doc}
    (hd : (p, d) ∈ m.docs) (tokens : List String) :
    FinOrNan (base_rank tokens m.docs.length m.df d) :=
  foldl_add_finOrNan tokens _ _ (Or.inl ⟨0, rfl⟩)
    (fun t _ => contrib_finOrNan hm hd t)

theorem finOrNan_mul_ite {rank : FVal} (h : FinOrNan rank) (c : Prop) [Decidable c]
    (a b : ℝ) : FinOrNan (FVal.mul rank (if c then FVal.fin a else FVal.fin b)) := by
  by_cases hc : c
  · rw [if_pos hc]
    exact finOrNan_mul_fin h a
  · rw [if_neg hc]
    exact finOrNan_mul_fin h b

theorem apply_coverage_finOrNan {tokens : List String} {d : Doc} {rank : FVal}
    (h : FinOrNan rank) : FinOrNan (apply_coverage tokens d rank) := by
  unfold apply_coverage
  by_cases hc : 1 < tokens.dedup.length
  · rw [if_pos hc]
    exact finOrNan_mul_ite h _ _ _
  · rw [if_neg hc]
    exact h

theorem apply_phrase_finOrNan {tokens : List String} {d : Doc} {rank : FVal}
    (h : FinOrNan rank) : FinOrNan (apply_phrase tokens d rank) := by
  unfold apply_phrase
  by_cases hc : 1 < tokens.length ∧ phrase_in_doc tokens d = true
  · rw [if_pos hc]
    exact finOrNan_mul_fin h _
  · rw [if_neg hc]
    exact h

theorem doc_rank_finOrNan {m : Model} (hm : ModelOk m) {p : String} {d : Doc}
    (hd : (p, d) ∈ m.docs) (tokens : List String) :
    FinOrNan (doc_rank tokens m.docs.length m.df d) :=
  apply_phrase_finOrNan (apply_coverage_finOrNan (base_rank_finOrNan hm hd tokens))

theorem finOrNan_fin_of_not_nan {f : FVal} (h : FinOrNan f) (hn : f.isNan = false) :
    ∃ x : ℝ, f = .fin x := by
  rcases h with ⟨x, rfl⟩ | rfl
  · exact ⟨x, rfl⟩
  · simp [FVal.isNan] at hn

theorem mem_search_query {m : Model} {stem : String → String} {query : List Char}
    {pr : String × FVal} (h : pr ∈ m.search_query stem query) :
    ∃ pd ∈ m.docs,
      (doc_rank (lexer stem query) m.docs.length m.df pd.2).isNan = false ∧
        pr = (pd.1, doc_rank (lexer stem query) m.docs.length m.df pd.2) := by
  unfold Model.search_query at h
  rw [List.mem_reverse] at h
  have h2 := (List.mergeSort_perm _ rankLe).mem_iff.mp h
  obtain ⟨pd, hpd, hf⟩ := List.mem_filterMap.mp h2
  refine ⟨pd, hpd, ?_⟩
  dsimp only at hf
  cases hnan : (doc_rank (lexer stem query) m.docs.length m.df pd.2).isNan with
  | false =>
    rw [if_neg (by simp [hnan])] at hf
    exact ⟨rfl, (Option.some.injEq _ _ ▸ hf).symm⟩
  | true =>
    rw [if_pos (by simp [hnan])] at hf
    cases hf

/-- Decidable strict ascending order of a positions list (the §3 invariant
"must stay sorted"). -/
def strictAsc : List Nat → Bool
  | [] => true
  | [_] => true
  | a :: b :: rest => decide (a < b) && strictAsc (b :: rest)

theorem strictAsc_iff (l : List Nat) : strictAsc l = true ↔ l.Pairwise (· < ·) := by
  rw [← List.chain'_iff_pairwise]
  induction l with
  | nil => simp [strictAsc]
  | cons a rest ih =>
    cases rest with
    | nil => simp [strictAsc]
    | cons b rest' =>
      rw [List.chain'_cons, ← ih]
      simp [strictAsc]

theorem getD_mono {v : List Nat} (hs : v.Pairwise (· < ·)) {i j : Nat} (hij : i ≤ j)
    (hj : j < v.length) : v.getD i 0 ≤ v.getD j 0 := by
  rcases Nat.eq_or_lt_of_le hij with rfl | hlt
  · exact le_rfl
  · have hi : i < v.length := lt_trans hlt hj
    have h1 : v.getD i 0 = v.get ⟨i, hi⟩ := by
      rw [List.getD_eq_getElem v 0 hi]
      simp
    have h2 : v.getD j 0 = v.get ⟨j, hj⟩ := by
      rw [List.getD_eq_getElem v 0 hj]
      simp
    rw [h1, h2]
    exact le_of_lt (List.pairwise_iff_get.mp hs ⟨i, hi⟩ ⟨j, hj⟩ hlt)

theorem bsGo_iff (v : List Nat) (hs : List.Pairwise (· < ·) v) (x : Nat) :
    ∀ n lo hi, hi - lo = n → hi ≤ v.length →
      (bsGo v x lo hi = true ↔ ∃ i, lo ≤ i ∧ i < hi ∧ v.getD i 0 = x) := by
  intro n
  induction n using Nat.strong_induction_on with
  | _ n ih =>
    intro lo hi hn hhi
    by_cases hlt : lo < hi
    · rw [bsGo, dif_pos hlt]
      have hmid_lo : lo ≤ (lo + hi) / 2 := by omega
      have hmid_hi : (lo + hi) / 2 < hi := by omega
      by_cases h1 : v.getD ((lo + hi) / 2) 0 < x
      · rw [if_pos h1, ih (hi - ((lo + hi) / 2 + 1)) (by omega) _ hi rfl hhi]
        constructor
        · rintro ⟨i, h2, h3, h4⟩
          exact ⟨i, by omega, h3, h4⟩
        · rintro ⟨i, h2, h3, h4⟩
          refine ⟨i, ?_, h3, h4⟩
          by_contra hc
          have hile : i ≤ (lo + hi) / 2 := by omega
          have hle := getD_mono hs hile (by omega)
          omega
      · rw [if_neg h1]
        by_cases h2 : x < v.getD ((lo + hi) / 2) 0
        · rw [if_pos h2, ih ((lo + hi) / 2 - lo) (by omega) lo _ rfl (by omega)]
          constructor
          · rintro ⟨i, h3, h4, h5⟩
            exact ⟨i, h3, by omega, h5⟩
          · rintro ⟨i, h3, h4, h5⟩
            refine ⟨i, h3, ?_, h5⟩
            by_contra hc
            have hige : (lo + hi) / 2 ≤ i := by omega
            have hle := getD_mono hs hige (by omega)
            omega
        · rw [if_neg h2]
          have heq : v.getD ((lo + hi) / 2) 0 = x := by omega
          constructor
          · intro _
            exact ⟨(lo + hi) / 2, hmid_lo, hmid_hi, heq⟩
          · intro _
            rfl
    · rw [bsGo, dif_neg hlt]
      simp only [Bool.false_eq_true, false_iff]
      rintro ⟨i, h1, h2, _⟩
      omega

theorem binary_search_iff {v : List Nat} (hs : List.Pairwise (· < ·) v) (x : Nat) :
    binary_search v x = true ↔ x ∈ v := by
  unfold binary_search
  rw [bsGo_iff v hs x v.length 0 v.length (by omega) le_rfl]
  constructor
  · rintro ⟨i, _, hi, hgd⟩
    have : v.getD i 0 = v.get ⟨i, hi⟩ := by
      rw [List.getD_eq_getElem v 0 hi]
      simp
    rw [this] at hgd
    exact hgd ▸ v.get_mem i hi
  · intro hmem
    obtain ⟨⟨i, hi⟩, hg⟩ := List.mem_iff_get.mp hmem
    refine ⟨i, by omega, hi, ?_⟩
    rw [List.getD_eq_getElem v 0 hi]
    rw [← hg]
    simp

theorem phraseFrom_iff {d : Doc}
    (hsort : ∀ e ∈ d.positions, List.Pairwise (· < ·) e.2)
    (tks : List String) (expected : Nat) :
    phraseFrom d tks expected = true ↔
      ∀ i < tks.length, expected + i ∈ (alookup d.positions (tks.getD i "")).getD [] := by
  induction tks generalizing expected with
  | nil => simp [phraseFrom]
  | cons tok rest ih =>
    unfold phraseFrom
    cases hl : alookup d.positions tok with
    | none =>
      simp only [Bool.false_eq_true, false_iff]
      intro hall
      have h0 := hall 0 (by simp)
      simp [hl] at h0
    | some pos_vec =>
      have hsv : List.Pairwise (· < ·) pos_vec := hsort (tok, pos_vec) (alookup_mem hl)
      rw [Bool.and_eq_true, binary_search_iff hsv, ih (expected + 1)]
      constructor
      · rintro ⟨hmem, hrest⟩ i hi
        cases i with
        | zero => simpa [hl] using hmem
        | succ j =>
          have hj : j < rest.length := by simpa using hi
          have hr := hrest j hj
          have hx : expected + 1 + j = expected + (j + 1) := by omega
          rw [hx] at hr
          simpa using hr
      · intro hall
        constructor
        · have h0 := hall 0 (by simp)
          simpa [hl] using h0
        · intro j hj
          have hs1 := hall (j + 1) (by simpa using Nat.succ_lt_succ hj)
          have hx : expected + (j + 1) = expected + 1 + j := by omega
          rw [hx] at hs1
          simpa using hs1

theorem phrase_in_doc_iff {tokens : List String} {d : Doc} (hne : tokens ≠ [])
    (hsort : ∀ e ∈ d.positions, strictAsc e.2 = true)
    (hc2 : ∀ e ∈ d.positions, e.2 ≠ [] → (alookup d.tf e.1).isSome = true) :
    phrase_in_doc tokens d = true ↔ ContiguousIn tokens d := by
  obtain ⟨t0, rest, rfl⟩ : ∃ t0 rest, tokens = t0 :: rest := by
    cases tokens with
    | nil => exact absurd rfl hne
    | cons a b => exact ⟨a, b, rfl⟩
  have hsort' : ∀ e ∈ d.positions, List.Pairwise (· < ·) e.2 := fun e he =>
    (strictAsc_iff e.2).mp (hsort e he)
  constructor
  · intro h
    simp only [phrase_in_doc] at h
    by_cases hqr : (t0 :: rest).any (fun t => !(alookup d.tf t).isSome) = true
    · rw [if_pos hqr] at h
      simp at h
    · rw [if_neg hqr] at h
      cases hl : alookup d.positions t0 with
      | none =>
        rw [hl] at h
        simp at h
      | some first_pos =>
        rw [hl] at h
        obtain ⟨start, hstart, hpf⟩ := List.any_eq_true.mp h
        rw [phraseFrom_iff hsort' rest (start + 1)] at hpf
        refine ⟨start, fun i hi => ?_⟩
        cases i with
        | zero => simpa [hl] using hstart
        | succ j =>
          have hj : j < rest.length := by simpa using hi
          have hr := hpf j hj
          have hx : start + 1 + j = start + (j + 1) := by omega
          rw [hx] at hr
          simpa using hr
  · rintro ⟨s, hall⟩
    simp only [phrase_in_doc]
    have htf : ∀ i, (hi : i < (t0 :: rest).length) →
        (alookup d.tf ((t0 :: rest).getD i "")).isSome = true := by
      intro i hi
      have hmem := hall i hi
      cases hlp : alookup d.positions ((t0 :: rest).getD i "") with
      | none =>
        rw [hlp] at hmem
        simp at hmem
      | some l =>
        rw [hlp] at hmem
        simp only [Option.getD_some] at hmem
        have hlne : l ≠ [] := by
          intro hemp
          rw [hemp] at hmem
          simp at hmem
        exact hc2 (_, l) (alookup_mem hlp) hlne
    have hqr : (t0 :: rest).any (fun t => !(alookup d.tf t).isSome) = false := by
      rw [List.any_eq_false]
      intro t ht
      obtain ⟨⟨i, hi⟩, hg⟩ := List.mem_iff_get.mp ht
      have hgd : (t0 :: rest).getD i "" = t := by
        rw [List.getD_eq_getElem _ _ hi, ← hg]
        simp
      have hsome := htf i hi
      rw [hgd] at hsome
      simp [hsome]
    rw [if_neg (by rw [hqr]; simp)]
    have h0 := hall 0 (by simp)
    cases hlp : alookup d.positions t0 with
    | none =>
      simp [hlp] at h0
    | some first_pos =>
      show first_pos.any (fun start => phraseFrom d rest (start + 1)) = true
      rw [List.any_eq_true]
      refine ⟨s, by simpa [hlp] using h0, ?_⟩
      rw [phraseFrom_iff hsort' rest (s + 1)]
      intro j hj
      have hs1 := hall (j + 1) (by simpa using Nat.succ_lt_succ hj)
      have hx : s + (j + 1) = s + 1 + j := by omega
      rw [hx] at hs1
      simpa using hs1

theorem requires_reindexing_some {m : Model} {p : String} {d : Doc} {lmq : Nat}
    (h : alookup m.docs p = some d) :
    m.requires_reindexing p lmq = decide (d.last_modified < lmq) := by
  unfold Model.requires_reindexing
  rw [h]

theorem requires_reindexing_none {m : Model} {p : String} {lmq : Nat}
    (h : alookup m.docs p = none) : m.requires_reindexing p lmq = true := by
  unfold Model.requires_reindexing
  rw [h]

theorem process_file_of_current {m : Model} {stem : String → String} {p : String} {lmq : Nat}
    {ex : Option (List Char)} (h : m.requires_reindexing p lmq = false) :
    process_file m stem p lmq ex = m := by
  unfold process_file
  rw [if_neg (by rw [h]; simp)]

theorem process_file_of_stale {m : Model} {stem : String → String} {p : String} {lmq : Nat}
    {c : List Char} (h : m.requires_reindexing p lmq = true) :
    process_file m stem p lmq (some c) = m.add_document stem p lmq c := by
  unfold process_file
  rw [if_pos (by rw [h])]

theorem add_document_lookup_self (m : Model) (stem : String → String) (p : String) (lm : Nat)
    (c : List Char) :
    alookup (m.add_document stem p lm c).docs p = some (buildDoc stem lm c) := by
  rw [add_document_docs]
  rw [alookup_append_right _ _ _ (remove_document_lookup_none m p)]
  simp [alookup]

theorem aremove_append {α β : Type} [DecidableEq α] (l l' : List (α × β)) (a : α) :
    aremove (l ++ l') a = aremove l a ++ aremove l' a :=
  List.filter_append l l'

/-- Removing the freshly added document restores the docs of the removal
state: the second `remove_document` in a back-to-back `add_document` pair
exactly undoes the first insertion. -/
theorem add_then_remove_docs (m : Model) (stem : String → String) (p : String) (lm : Nat)
    (c : List Char) :
    ((m.add_document stem p lm c).remove_document p).docs = (m.remove_document p).docs := by
  rw [remove_document_of_present (add_document_lookup_self m stem p lm c)]
  show aremove (m.add_document stem p lm c).docs p = _
  rw [add_document_docs, aremove_append,
    aremove_of_absent _ _ (remove_document_lookup_none m p)]
  simp [aremove]

theorem foldl_incr_decr_incr_lookup {α : Type} [DecidableEq α] (ks : List α)
    (df : List (α × Nat)) (t : α) :
    alookup (ks.foldl aincr (ks.foldl adecr (ks.foldl aincr df))) t =
      alookup (ks.foldl aincr df) t := by
  by_cases hc : ks.count t = 0
  · rw [alookup_foldl_aincr, if_pos hc, alookup_foldl_adecr, hc, alookup_foldl_aincr,
      if_pos hc]
    cases alookup df t <;> simp
  · rw [alookup_foldl_aincr, if_neg hc, alookup_foldl_adecr, alookup_foldl_aincr, if_neg hc]
    simp only [Option.map_some', Option.getD_some, Option.some.injEq]
    omega

theorem add_document_twice_docs (m : Model) (stem : String → String) (p : String) (lm : Nat)
    (c : List Char) :
    ((m.add_document stem p lm c).add_document stem p lm c).docs =
      (m.add_document stem p lm c).docs := by
  rw [add_document_docs ((m.add_document stem p lm c)) stem p lm c,
    add_then_remove_docs, add_document_docs]

theorem add_document_twice_df (m : Model) (stem : String → String) (p : String) (lm : Nat)
    (c : List Char) (t : String) :
    alookup ((m.add_document stem p lm c).add_document stem p lm c).df t =
      alookup (m.add_document stem p lm c).df t := by
  have hpairs : ∀ df0 : List (String × Nat),
      (buildDoc stem lm c).tf.foldl (fun df e => aincr df e.1) df0 =
        ((buildDoc stem lm c).tf.map Prod.fst).foldl aincr df0 :=
    fun df0 => (List.foldl_map _ _ _ _).symm
  have hdf2 : ((m.add_document stem p lm c).remove_document p).df =
      ((buildDoc stem lm c).tf.map Prod.fst).foldl adecr (m.add_document stem p lm c).df := by
    rw [remove_document_of_present (add_document_lookup_self m stem p lm c)]
    exact (List.foldl_map _ _ _ _).symm
  rw [add_document_df, hpairs, hdf2, add_document_df, hpairs]
  exact foldl_incr_decr_incr_lookup _ _ t

theorem doc_rank_nil (n : Nat) (df : List (String × Nat)) (d : Doc) :
    doc_rank [] n df d = .fin 0 := rfl

theorem search_query_empty_tokens {m : Model} {stem : String → String} {query : List Char}
    (h : lexer stem query = []) :
    (m.search_query stem query).Perm (m.docs.map (fun pd => (pd.1, FVal.fin 0))) := by
  have hperm : (m.search_query stem query).Perm
      (m.docs.filterMap (fun pd =>
        let rank := doc_rank (lexer stem query) m.docs.length m.df pd.2
        if rank.isNan then none else some (pd.1, rank))) := by
    unfold Model.search_query
    exact (List.reverse_perm _).trans (List.mergeSort_perm _ rankLe)
  rw [h] at hperm
  refine hperm.trans ?_
  rw [show (fun (pd : String × Doc) =>
      let rank := doc_rank [] m.docs.length m.df pd.2
      if rank.isNan then none else some (pd.1, rank)) =
      some ∘ (fun pd => (pd.1, FVal.fin 0)) from rfl, List.filterMap_eq_map]

theorem dedup_length_le_max_eq {l : List String} (h : 1 < l.dedup.length) :
    max l.dedup.length 1 = l.dedup.length := by omega

/-- The coverage factor as the source computes it, rewritten by the cases of
the claim: full coverage gives exactly 1.5, partial coverage gives
`coverage^2`. -/
theorem apply_coverage_cases (tokens : List String) (d : Doc) (rank : FVal)
    (hlen : 1 < tokens.dedup.length) :
    apply_coverage tokens d rank =
      FVal.mul rank
        (if ∀ t ∈ tokens, (alookup d.tf t).isSome = true then .fin 1.5
         else .fin ((((tokens.dedup.filter (fun t => (alookup d.tf t).isSome)).length : ℝ) /
           (tokens.dedup.length : ℝ)) ^ 2)) := by
  unfold apply_coverage
  rw [if_pos hlen]
  show FVal.mul rank _ = FVal.mul rank _
  congr 1
  rw [dedup_length_le_max_eq hlen]
  have hdl : (0 : ℝ) < (tokens.dedup.length : ℝ) := by
    have : 0 < tokens.dedup.length := by omega
    exact_mod_cast this
  by_cases hall : ∀ t ∈ tokens, (alookup d.tf t).isSome = true
  · have hall' : ∀ t ∈ tokens.dedup, (alookup d.tf t).isSome = true := fun t ht =>
      hall t (List.mem_dedup.mp ht)
    have hfe : tokens.dedup.filter (fun t => (alookup d.tf t).isSome) = tokens.dedup :=
      List.filter_eq_self.mpr hall'
    rw [hfe, if_pos hall, if_pos (by rw [div_self (ne_of_gt hdl)])]
    norm_num
  · have hlt : (tokens.dedup.filter (fun t => (alookup d.tf t).isSome)).length <
        tokens.dedup.length := by
      rcases Nat.lt_or_ge (tokens.dedup.filter
          (fun t => (alookup d.tf t).isSome)).length tokens.dedup.length with hlt | hge
      · exact hlt
      · exfalso
        have hlenq : (tokens.dedup.filter (fun t => (alookup d.tf t).isSome)).length =
            tokens.dedup.length :=
          le_antisymm (tokens.dedup.length_filter_le _) hge
        have heq : tokens.dedup.filter (fun t => (alookup d.tf t).isSome) = tokens.dedup :=
          (List.filter_sublist _).eq_of_length hlenq
        exact hall (fun t ht => List.filter_eq_self.mp heq t (List.mem_dedup.mpr ht))
    have hcov : ¬ (1 : ℝ) ≤
        ((tokens.dedup.filter (fun t => (alookup d.tf t).isSome)).length : ℝ) /
          (tokens.dedup.length : ℝ) := by
      rw [not_le, div_lt_one hdl]
      exact_mod_cast hlt
    rw [if_neg hall, if_neg hcov]

theorem apply_coverage_single (tokens : List String) (d : Doc) (rank : FVal)
    (hlen : tokens.dedup.length ≤ 1) : apply_coverage tokens d rank = rank := by
  unfold apply_coverage
  rw [if_neg (by omega)]

theorem apply_phrase_pos {tokens : List String} {d : Doc} (rank : FVal)
    (hlen : 1 < tokens.length) (h : phrase_in_doc tokens d = true) :
    apply_phrase tokens d rank = FVal.mul rank (.fin 2) := by
  unfold apply_phrase
  rw [if_pos ⟨hlen, h⟩]

theorem apply_phrase_neg {tokens : List String} {d : Doc} (rank : FVal)
    (h : ¬ (1 < tokens.length ∧ phrase_in_doc tokens d = true)) :
    apply_phrase tokens d rank = rank := by
  unfold apply_phrase
  rw [if_neg h]

/-- C1: for every index state reachable from the empty index by `add_document`
calls and every token `t`, the `df` entry for `t` (0 when absent) equals the
number of documents whose `term_frequency` contains `t`, and is never
negative (the count lives in `Nat` and the decrement in `remove_document`
only ever fires on a value that the invariant forces to be positive). -/
theorem df_invariant_reachable {stem : String → String} {m : Model}
    (h : Reachable stem m) (t : String) :
    (alookup m.df t).getD 0 = n_containing m t ∧ 0 ≤ (alookup m.df t).getD 0 :=
  ⟨(reachable_ok h).df_count t, Nat.zero_le _⟩

theorem df_invariant_reachable_witness :
    (alookup ((Model.mk [] []).add_document (fun s => s) "p" 0 "a b a".toList).df "a").getD 0 =
      n_containing ((Model.mk [] []).add_document (fun s => s) "p" 0 "a b a".toList) "a" ∧
    0 ≤ (alookup ((Model.mk [] []).add_document (fun s => s) "p" 0 "a b a".toList).df "a").getD 0 :=
  df_invariant_reachable (Reachable.add (Model.mk [] []) "p" 0 "a b a".toList Reachable.empty)
    "a"

/-- C2: on every corpus state satisfying the §3 data-model invariant
(`ModelOk` — in particular every state reachable by `add_document`, by
`reachable_ok`), every (path, score) pair returned by `search_query` carries a
finite score: the only non-finite ranks that can arise are NaN, and those are
filtered out. -/
theorem search_query_scores_finite {m : Model} (hm : ModelOk m) (stem : String → String)
    (query : List Char) (p : String) (s : FVal)
    (hmem : (p, s) ∈ m.search_query stem query) : ∃ x : ℝ, s = FVal.fin x := by
  obtain ⟨pd, hpd, hnan, heq⟩ := mem_search_query hmem
  obtain ⟨p', d⟩ := pd
  have hfn : FinOrNan (doc_rank (lexer stem query) m.docs.length m.df d) :=
    doc_rank_finOrNan hm hpd _
  obtain ⟨x, hx⟩ := finOrNan_fin_of_not_nan hfn hnan
  have hs : s = doc_rank (lexer stem query) m.docs.length m.df d := congrArg Prod.snd heq
  exact ⟨x, by rw [hs, hx]⟩

theorem search_query_scores_finite_witness : ∃ x : ℝ, FVal.fin 0 = FVal.fin x := by
  have hreach : Reachable (fun s => s)
      ((Model.mk [] []).add_document (fun s => s) "p" 0 ['a']) :=
    Reachable.add (Model.mk [] []) "p" 0 ['a'] Reachable.empty
  have hmem : ("p", FVal.fin 0) ∈
      ((Model.mk [] []).add_document (fun s => s) "p" 0 ['a']).search_query (fun s => s) [] := by
    refine (@search_query_empty_tokens ((Model.mk [] []).add_document (fun s => s) "p" 0 ['a'])
      (fun s => s) [] rfl).mem_iff.mpr ?_
    have hdocs : ((Model.mk [] []).add_document (fun s => s) "p" 0 ['a']).docs =
        [("p", buildDoc (fun s => s) 0 ['a'])] := rfl
    rw [hdocs]
    exact List.mem_singleton.mpr rfl
  exact search_query_scores_finite (reachable_ok hreach) (fun s => s) [] "p" (FVal.fin 0) hmem

/-- C3 counterexample: with a *stored* df entry of value 0 (which
`remove_document` leaves behind) the code computes `idf = log10(1/0) = +inf`,
while the claimed formula `log10(N / max(df(t), 1))` gives `log10(1) = 0`. -/
theorem compute_idf_stored_zero_counterexample :
    compute_idf "t" 1 [("t", 0)] = FVal.inf ∧
    specIdf "t" 1 [("t", 0)] = FVal.fin 0 ∧ (FVal.inf : FVal) ≠ FVal.fin 0 := by
  refine ⟨?_, ?_, fun h => FVal.noConfusion h⟩
  · exact compute_idf_of_entry_zero (by omega) rfl
  · unfold specIdf
    have hmax : max ((alookup [("t", (0 : Nat))] "t").getD 0) 1 = 1 := rfl
    rw [hmax]
    have h1 : ((1 : Nat) : ℝ) ≠ 0 := by norm_num
    simp [FVal.div, FVal.log10, Real.logb_one]

/-- C3 amended: the idf weight equals `log10(N / df(t))` where `df(t)` is the
stored entry when present — even when that stored value is 0, in which case
the denominator is 0 and the idf is `+inf` — and defaults to 1 only for a
token with no stored entry. The spec's `max(df(t), 1)` formula agrees with
the code exactly when the stored value is nonzero or absent. -/
theorem compute_idf_amended (t : String) (n : Nat) (df : List (String × Nat)) :
    ((alookup df t).getD 1 ≠ 0 → compute_idf t n df = specIdf t n df) ∧
    (alookup df t = some 0 → 0 < n →
      compute_idf t n df = FVal.inf ∧ specIdf t n df ≠ FVal.inf) := by
  constructor
  · intro hne
    unfold compute_idf specIdf
    have hmax : max ((alookup df t).getD 0) 1 = (alookup df t).getD 1 := by
      cases hl : alookup df t with
      | none => simp
      | some v =>
        rw [hl] at hne
        simp only [Option.getD_some] at hne ⊢
        omega
    rw [hmax]
  · intro hsome hn
    constructor
    · exact compute_idf_of_entry_zero hn (by rw [hsome]; rfl)
    · unfold specIdf
      rw [hsome]
      have hnpos : (0 : ℝ) < (n : ℝ) := by exact_mod_cast hn
      simp only [Option.getD_some]
      have h1 : ((max 0 1 : Nat) : ℝ) = 1 := by norm_num
      rw [h1]
      have hq : (0 : ℝ) < (n : ℝ) / 1 := by simpa using hnpos
      have hone : (1 : ℝ) ≠ 0 := one_ne_zero
      simp only [FVal.div, if_neg hone]
      simp only [FVal.log10, div_one]
      rw [if_neg (not_lt_of_gt hnpos), if_neg (by exact_mod_cast Nat.pos_iff_ne_zero.mp hn)]
      exact fun hcontra => FVal.noConfusion hcontra

theorem compute_idf_amended_witness :
    (compute_idf "t" 2 [("u", 3)] = specIdf "t" 2 [("u", 3)]) ∧
    (compute_idf "t" 1 [("t", 0)] = FVal.inf ∧ specIdf "t" 1 [("t", 0)] ≠ FVal.inf) :=
  ⟨(compute_idf_amended "t" 2 [("u", 3)]).1 (by decide),
   (compute_idf_amended "t" 1 [("t", 0)]).2 (by decide) (by decide)⟩

/-- C4 counterexample: on a document with `term_count = 0` the code computes
`tf = 0.0 / 0.0 = NaN`, while the claim says the weight is 0. -/
theorem compute_tf_empty_doc_counterexample :
    compute_tf "t" (Doc.mk 0 [] 0 []) = FVal.nan ∧
    specTf "t" (Doc.mk 0 [] 0 []) = FVal.fin 0 ∧ (FVal.nan : FVal) ≠ FVal.fin 0 := by
  refine ⟨?_, ?_, fun h => FVal.noConfusion h⟩
  · exact compute_tf_of_count_zero rfl rfl
  · unfold specTf
    rw [if_pos rfl]

/-- C4 amended: `tf = count of t in d / term_count(d)` when `term_count > 0`;
when `term_count = 0` the result is NaN — not 0 — whenever the token's stored
count is also 0 (the only possibility for a well-formed document; the NaN
rank then excludes the document from every result), and `+inf` for a
degenerate document storing a positive count with `term_count = 0`. -/
theorem compute_tf_amended (t : String) (d : Doc) :
    (0 < d.count → compute_tf t d = specTf t d) ∧
    (d.count = 0 → (alookup d.tf t).getD 0 = 0 → compute_tf t d = FVal.nan) ∧
    (d.count = 0 → 0 < (alookup d.tf t).getD 0 → compute_tf t d = FVal.inf) := by
  refine ⟨?_, fun hc ha => compute_tf_of_count_zero hc ha, ?_⟩
  · intro hc
    rw [compute_tf_of_count_pos hc]
    unfold specTf
    rw [if_neg (by omega)]
  · intro hc hm
    unfold compute_tf
    have hm' : (0 : ℝ) < (((alookup d.tf t).getD 0 : Nat) : ℝ) := by exact_mod_cast hm
    simp [FVal.div, hc, ne_of_gt hm', hm']

theorem compute_tf_amended_witness :
    (compute_tf "a" (Doc.mk 2 [("a", 1)] 0 [("a", [0])]) =
      specTf "a" (Doc.mk 2 [("a", 1)] 0 [("a", [0])])) ∧
    compute_tf "t" (Doc.mk 0 [] 0 []) = FVal.nan ∧
    compute_tf "t" (Doc.mk 0 [("t", 5)] 0 []) = FVal.inf :=
  ⟨(compute_tf_amended "a" (Doc.mk 2 [("a", 1)] 0 [("a", [0])])).1 (by decide),
   (compute_tf_amended "t" (Doc.mk 0 [] 0 [])).2.1 rfl rfl,
   (compute_tf_amended "t" (Doc.mk 0 [("t", 5)] 0 [])).2.2 rfl (by decide)⟩

/-- C5: `requires_reindexing(path, mtime)` is true exactly when no document is
stored at the path or the stored `last_modified` is strictly earlier than
`mtime`; equal timestamps give false. The embedding is a pure function of the
model — the source takes `&mut self` but performs no writes. -/
theorem requires_reindexing_spec (m : Model) (p : String) (mtime : Nat) :
    (m.requires_reindexing p mtime = true ↔
      alookup m.docs p = none ∨
        ∃ d, alookup m.docs p = some d ∧ d.last_modified < mtime) ∧
    (∀ d, alookup m.docs p = some d → d.last_modified = mtime →
      m.requires_reindexing p mtime = false) := by
  constructor
  · cases hl : alookup m.docs p with
    | none =>
      rw [requires_reindexing_none hl]
      simp [hl]
    | some d =>
      rw [requires_reindexing_some hl]
      simp [hl]
  · intro d hl heq
    rw [requires_reindexing_some hl, heq]
    simp

theorem requires_reindexing_spec_witness :
    (Model.mk [("p", Doc.mk 0 [] 5 [])] []).requires_reindexing "p" 5 = false :=
  (requires_reindexing_spec (Model.mk [("p", Doc.mk 0 [] 5 [])] []) "p" 5).2
    (Doc.mk 0 [] 5 []) (by decide) rfl

/-- C6: for a query of more than one token (counting repeats) and a document
whose `positions` lists are sorted and consistent with `term_frequency` (the
§3 invariants), `phrase_in_doc` holds exactly when the full ordered token
sequence occurs contiguously per the positions lists; the (already
coverage-adjusted) score is multiplied by exactly 2.0 when it does and left
unchanged when it does not — so with all other factors equal a document with
the tokens adjacent in order scores exactly twice one without. The final
conjunct records that the phrase factor composes multiplicatively on top of
the coverage-adjusted base score in `doc_rank`. -/
theorem phrase_boost_spec (tokens : List String) (d : Doc) (rank : FVal)
    (hlen : 1 < tokens.length)
    (hsort : ∀ e ∈ d.positions, strictAsc e.2 = true)
    (hcons : ∀ e ∈ d.positions, e.2 ≠ [] → (alookup d.tf e.1).isSome = true) :
    (phrase_in_doc tokens d = true ↔ ContiguousIn tokens d) ∧
    (ContiguousIn tokens d → apply_phrase tokens d rank = FVal.mul rank (.fin 2)) ∧
    (¬ContiguousIn tokens d → apply_phrase tokens d rank = rank) ∧
    (∀ x : ℝ, ContiguousIn tokens d → apply_phrase tokens d (.fin x) = .fin (x * 2)) ∧
    (∀ n df, doc_rank tokens n df d =
      apply_phrase tokens d (apply_coverage tokens d (base_rank tokens n df d))) := by
  have hne : tokens ≠ [] := by
    intro hemp
    rw [hemp] at hlen
    simp at hlen
  have hiff := phrase_in_doc_iff hne hsort hcons
  refine ⟨hiff, ?_, ?_, ?_, fun _ _ => rfl⟩
  · intro hcont
    exact apply_phrase_pos rank hlen (hiff.mpr hcont)
  · intro hncont
    refine apply_phrase_neg rank ?_
    rintro ⟨_, hp⟩
    exact hncont (hiff.mp hp)
  · intro x hcont
    rw [apply_phrase_pos _ hlen (hiff.mpr hcont)]
    rfl

theorem phrase_boost_spec_witness :
    (phrase_in_doc ["a", "b"] (Doc.mk 2 [("a", 1), ("b", 1)] 0 [("a", [0]), ("b", [1])]) = true ↔
      ContiguousIn ["a", "b"] (Doc.mk 2 [("a", 1), ("b", 1)] 0 [("a", [0]), ("b", [1])])) ∧
    (ContiguousIn ["a", "b"] (Doc.mk 2 [("a", 1), ("b", 1)] 0 [("a", [0]), ("b", [1])]) →
      apply_phrase ["a", "b"] (Doc.mk 2 [("a", 1), ("b", 1)] 0 [("a", [0]), ("b", [1])])
        (FVal.fin 1) = FVal.mul (FVal.fin 1) (.fin 2)) ∧
    (¬ContiguousIn ["a", "b"] (Doc.mk 2 [("a", 1), ("b", 1)] 0 [("a", [0]), ("b", [1])]) →
      apply_phrase ["a", "b"] (Doc.mk 2 [("a", 1), ("b", 1)] 0 [("a", [0]), ("b", [1])])
        (FVal.fin 1) = FVal.fin 1) ∧
    (∀ x : ℝ, ContiguousIn ["a", "b"] (Doc.mk 2 [("a", 1), ("b", 1)] 0 [("a", [0]), ("b", [1])]) →
      apply_phrase ["a", "b"] (Doc.mk 2 [("a", 1), ("b", 1)] 0 [("a", [0]), ("b", [1])])
        (.fin x) = .fin (x * 2)) ∧
    (∀ n df, doc_rank ["a", "b"] n df (Doc.mk 2 [("a", 1), ("b", 1)] 0 [("a", [0]), ("b", [1])]) =
      apply_phrase ["a", "b"] (Doc.mk 2 [("a", 1), ("b", 1)] 0 [("a", [0]), ("b", [1])])
        (apply_coverage ["a", "b"] (Doc.mk 2 [("a", 1), ("b", 1)] 0 [("a", [0]), ("b", [1])])
          (base_rank ["a", "b"] n df
            (Doc.mk 2 [("a", 1), ("b", 1)] 0 [("a", [0]), ("b", [1])])))) :=
  phrase_boost_spec ["a", "b"] (Doc.mk 2 [("a", 1), ("b", 1)] 0 [("a", [0]), ("b", [1])])
    (FVal.fin 1) (by decide) (by decide) (by decide)

/-- C7: when the query has more than one distinct token, `search_query`
multiplies the base score by exactly 1.5 if every distinct query token occurs
in the document and by `coverage^2` (coverage = fraction of distinct query
tokens present) otherwise; queries with at most one distinct token get no
coverage adjustment. The last conjunct records where the factor sits in
`doc_rank`. -/
theorem coverage_spec (tokens : List String) (d : Doc) (rank : FVal) :
    (1 < tokens.dedup.length →
      apply_coverage tokens d rank =
        FVal.mul rank
          (if ∀ t ∈ tokens, (alookup d.tf t).isSome = true then .fin 1.5
           else .fin ((((tokens.dedup.filter
               (fun t => (alookup d.tf t).isSome)).length : ℝ) /
             (tokens.dedup.length : ℝ)) ^ 2))) ∧
    (tokens.dedup.length ≤ 1 → apply_coverage tokens d rank = rank) ∧
    (∀ n df, doc_rank tokens n df d =
      apply_phrase tokens d (apply_coverage tokens d (base_rank tokens n df d))) :=
  ⟨fun h => apply_coverage_cases tokens d rank h,
   fun h => apply_coverage_single tokens d rank h,
   fun _ _ => rfl⟩

theorem coverage_spec_witness :
    (apply_coverage ["a", "b"] (Doc.mk 1 [("a", 1)] 0 [("a", [0])]) (FVal.fin 1) =
      FVal.mul (FVal.fin 1)
        (if ∀ t ∈ ["a", "b"],
            (alookup (Doc.mk 1 [("a", 1)] 0 [("a", [0])]).tf t).isSome = true then .fin 1.5
         else .fin ((((["a", "b"].dedup.filter
             (fun t => (alookup (Doc.mk 1 [("a", 1)] 0 [("a", [0])]).tf t).isSome)).length : ℝ) /
           ((["a", "b"].dedup.length : ℝ))) ^ 2))) ∧
    apply_coverage ["a"] (Doc.mk 1 [("a", 1)] 0 [("a", [0])]) (FVal.fin 1) = FVal.fin 1 :=
  ⟨(coverage_spec ["a", "b"] (Doc.mk 1 [("a", 1)] 0 [("a", [0])]) (FVal.fin 1)).1 (by decide),
   (coverage_spec ["a"] (Doc.mk 1 [("a", 1)] 0 [("a", [0])]) (FVal.fin 1)).2.1 (by decide)⟩

/-- C8: indexing an unchanged file twice is idempotent. Calling
`add_document` twice with identical (path, mtime, content) leaves the index
in the same HashMap state as calling it once (docs structurally equal, `df`
lookup-equal: the replacement fully unwinds the old statistics before folding
the new ones in); when `requires_reindexing` is false the pipeline step
commits nothing; and running the pipeline step twice equals running it
once. -/
theorem add_document_idempotent (m : Model) (stem : String → String) (p : String)
    (lm : Nat) (c : List Char) :
    (((m.add_document stem p lm c).add_document stem p lm c).docs =
      (m.add_document stem p lm c).docs) ∧
    (∀ t, alookup ((m.add_document stem p lm c).add_document stem p lm c).df t =
      alookup (m.add_document stem p lm c).df t) ∧
    (∀ mtime ex, m.requires_reindexing p mtime = false → process_file m stem p mtime ex = m) ∧
    (process_file (process_file m stem p lm (some c)) stem p lm (some c) =
      process_file m stem p lm (some c)) := by
  refine ⟨add_document_twice_docs m stem p lm c, add_document_twice_df m stem p lm c,
    fun mtime ex h => process_file_of_current h, ?_⟩
  by_cases hreq : m.requires_reindexing p lm = true
  · rw [process_file_of_stale hreq]
    apply process_file_of_current
    rw [requires_reindexing_some (add_document_lookup_self m stem p lm c)]
    have hlm : (buildDoc stem lm c).last_modified = lm := rfl
    rw [hlm]
    simp
  · have hreq' : m.requires_reindexing p lm = false := by
      cases hb : m.requires_reindexing p lm
      · rfl
      · exact absurd hb hreq
    rw [process_file_of_current hreq', process_file_of_current hreq']

theorem add_document_idempotent_witness :
    process_file (Model.mk [("p", Doc.mk 1 [("a", 1)] 5 [("a", [0])])] [("a", 1)])
      (fun s => s) "p" 5 (some ['b']) =
      Model.mk [("p", Doc.mk 1 [("a", 1)] 5 [("a", [0])])] [("a", 1)] :=
  (add_document_idempotent (Model.mk [("p", Doc.mk 1 [("a", 1)] 5 [("a", [0])])] [("a", 1)])
    (fun s => s) "p" 0 []).2.2.1 5 (some ['b']) (by decide)

/-- C9: `is_ignored` fails open — it returns false for every path both before
`init` has run (the OnceLock is empty) and when building the pattern set
failed (the build falls back to the empty matcher instead of aborting). -/
theorem is_ignored_fail_open (path : String) (is_dir : Bool) :
    is_ignored none path is_dir = false ∧
    is_ignored (some (build_ignorer .failed)) path is_dir = false :=
  ⟨rfl, rfl⟩

/-- C10: a query that tokenizes to the empty token sequence returns one
(path, score) entry per document in the corpus — not an empty result — and
every returned score is exactly 0. -/
theorem search_query_empty_query (m : Model) (stem : String → String) (query : List Char)
    (h : lexer stem query = []) :
    (m.search_query stem query).Perm (m.docs.map (fun pd => (pd.1, FVal.fin 0))) ∧
    (m.search_query stem query).length = m.docs.length ∧
    ∀ pr ∈ m.search_query stem query, pr.2 = FVal.fin 0 := by
  have hperm := @search_query_empty_tokens m stem query h
  refine ⟨hperm, ?_, ?_⟩
  · rw [hperm.length_eq, List.length_map]
  · intro pr hpr
    obtain ⟨pd, hpd, heq⟩ := List.mem_map.mp (hperm.mem_iff.mp hpr)
    rw [← heq]

theorem search_query_empty_query_witness :
    ((Model.mk [("p", Doc.mk 1 [("a", 1)] 0 [("a", [0])])] [("a", 1)]).search_query
        (fun s => s) []).Perm
      ([("p", Doc.mk 1 [("a", 1)] 0 [("a", [0])])].map (fun pd => (pd.1, FVal.fin 0))) ∧
    ((Model.mk [("p", Doc.mk 1 [("a", 1)] 0 [("a", [0])])] [("a", 1)]).search_query
        (fun s => s) []).length =
      (Model.mk [("p", Doc.mk 1 [("a", 1)] 0 [("a", [0])])] [("a", 1)]).docs.length ∧
    ∀ pr ∈ (Model.mk [("p", Doc.mk 1 [("a", 1)] 0 [("a", [0])])] [("a", 1)]).search_query
        (fun s => s) [], pr.2 = FVal.fin 0 :=
  search_query_empty_query (Model.mk [("p", Doc.mk 1 [("a", 1)] 0 [("a", [0])])] [("a", 1)])
    (fun s => s) [] rfl
